import Mathlib

/-!
Verification of the firebase-rest-firestore module `src/types.ts`.

Shallow embedding of the module's core: the `LiteralDocumentReference`
class (an immutable holder of a reference string with five derived
accessors computed by matching the string against the fixed path grammar
`projects/:project_id/databases/:database_id/documents/:document_path*`)
and the `FirestoreFieldValue` recursive tagged union.

JavaScript strings are modelled by Lean `String` (a list of characters in
this toolchain). The `URLPattern` match performed by the source on the URL
`https://hostname/${referenceValue}` is modelled at the pathname level:
the URL's pathname is `/` followed by the reference string taken verbatim
(WHATWG URL canonicalization of exotic characters is outside the model),
and the pattern's compiled matcher is the anchored segment grammar
`/projects/([^/]+)/databases/([^/]+)/documents(?:/([^/]+(?:/[^/]+)*))?`,
i.e. literal segments `projects`, `databases`, `documents`, two mandatory
non-empty single-segment captures, and an optional wildcard capture of
one-or-more non-empty `/`-joined segments (absent when the string ends at
`documents`).
-/

/-- Helper for splitting at `'/'`: returns the leading segment (up to the
first separator) paired with the remaining segments. -/
def splitSegsP : List Char → List Char × List (List Char)
  | [] => ([], [])
  | c :: cs =>
    if c = '/' then ([], (splitSegsP cs).1 :: (splitSegsP cs).2)
    else (c :: (splitSegsP cs).1, (splitSegsP cs).2)

/-- Splits a character list at every `'/'` (the semantics of JavaScript
`String.prototype.split("/")` at character level): `""` gives `[""]`,
adjacent separators give empty segments, and no segment contains `'/'`. -/
def splitSegsCh (cs : List Char) : List (List Char) :=
  (splitSegsP cs).1 :: (splitSegsP cs).2

/-- Joins character-list segments with `'/'` (the semantics of JavaScript
`Array.prototype.join("/")` at character level): `[]` gives `""`. -/
def joinSegsCh : List (List Char) → List Char
  | [] => []
  | [s] => s
  | s :: rest => s ++ '/' :: joinSegsCh rest

/-- JavaScript `referenceValue.split("/")` on Lean strings. -/
def splitOnSlash (s : String) : List String :=
  (splitSegsCh s.data).map String.mk

/-- JavaScript `parts.join("/")` on Lean strings. -/
def joinSlash (l : List String) : String :=
  String.mk (joinSegsCh (l.map String.data))

/-- The structured captures produced by a successful `URLPattern` match of
the fixed pattern: `document_path` is `none` when the optional wildcard
group did not participate in the match (the JavaScript `undefined`). -/
structure PatternGroups where
  project_id : String
  database_id : String
  document_path : Option String
deriving Repr, DecidableEq

/-- Model of `LiteralDocumentReference.pattern.exec("https://hostname/" + ref)`
restricted to its pathname component: an anchored match of the pathname
`/` ++ `ref` against
`/projects/:project_id/databases/:database_id/documents/:document_path*`.
Each `:name` capture matches exactly one non-empty slash-free segment; the
`:document_path*` wildcard matches zero or more further non-empty segments
(zero leaves the group unmatched, i.e. `none`). Returns `none` when the
whole pathname does not match. -/
def patternExec (ref : String) : Option PatternGroups :=
  match splitOnSlash ref with
  | a :: p :: b :: d :: c :: rest =>
    if a = "projects" ∧ b = "databases" ∧ c = "documents" ∧
        p ≠ "" ∧ d ≠ "" ∧ (∀ seg ∈ rest, seg ≠ "") then
      some ⟨p, d, if rest.isEmpty then none else some (joinSlash rest)⟩
    else none
  | _ => none

/-- The error message thrown by every failure branch of `parse`. -/
def malformedMessage : String :=
  "Invalid document path. Path does not match pattern."

/-- The object returned by a successful `LiteralDocumentReference.parse`. -/
structure ParsedReference where
  project_id : String
  database_id : String
  document_path : String
deriving Repr, DecidableEq

/-- Embeds `export class LiteralDocumentReference`: an immutable holder of
the raw reference string. The constructor stores `options.referenceValue`
and performs no validation. -/
structure LiteralDocumentReference where
  referenceValue : String
deriving Repr, DecidableEq

namespace LiteralDocumentReference

/-- Embeds `private parse()`: runs the pattern match on the stored string
and throws `malformedMessage` when the match fails or when any of the
three captured groups is absent or empty (the JavaScript `!group` checks). -/
def parse (self : LiteralDocumentReference) : Except String ParsedReference :=
  match patternExec self.referenceValue with
  | none => .error malformedMessage
  | some result =>
    if result.project_id = "" then .error malformedMessage
    else if result.database_id = "" then .error malformedMessage
    else
      match result.document_path with
      | none => .error malformedMessage
      | some dp =>
        if dp = "" then .error malformedMessage
        else .ok ⟨result.project_id, result.database_id, dp⟩

/-- Getter `project_id`. -/
def project_id (self : LiteralDocumentReference) : Except String String :=
  self.parse.map (·.project_id)

/-- Getter `database_id`. -/
def database_id (self : LiteralDocumentReference) : Except String String :=
  self.parse.map (·.database_id)

/-- Getter `id`: split the document path on `/` and take the last element
(`parts[parts.length - 1]`). -/
def id (self : LiteralDocumentReference) : Except String String :=
  self.parse.map fun result =>
    let parts := splitOnSlash result.document_path
    parts.getD (parts.length - 1) ""

/-- Getter `collectionPath`: split the document path on `/` and join all
but the last element (`parts.slice(0, parts.length - 1).join("/")`). -/
def collectionPath (self : LiteralDocumentReference) : Except String String :=
  self.parse.map fun result =>
    let parts := splitOnSlash result.document_path
    joinSlash (parts.take (parts.length - 1))

/-- Getter `path`. -/
def path (self : LiteralDocumentReference) : Except String String :=
  self.parse.map (·.document_path)

end LiteralDocumentReference

/-- The five derived accessors of a `LiteralDocumentReference`. -/
inductive Accessor where
  | project_id | database_id | id | collectionPath | path
deriving Repr, DecidableEq

/-- Dispatches an accessor name to the corresponding getter. -/
def evalAccessor : Accessor → LiteralDocumentReference → Except String String
  | .project_id, r => r.project_id
  | .database_id, r => r.database_id
  | .id, r => r.id
  | .collectionPath, r => r.collectionPath
  | .path, r => r.path

/-- One getter invocation as a state transition: a getter in the source
reads `this.referenceValue` and assigns nothing, so the call returns its
result and leaves the object as the getter body left it — unchanged. -/
def stepAccessor (a : Accessor) (r : LiteralDocumentReference) :
    LiteralDocumentReference × Except String String :=
  (r, evalAccessor a r)

/-- Runs a sequence of accessor calls on a reference, threading the object
state through and collecting each call's outcome. -/
def runAccessors : List Accessor → LiteralDocumentReference →
    LiteralDocumentReference × List (Except String String)
  | [], r => (r, [])
  | a :: rest, r =>
    let step := stepAccessor a r
    let next := runAccessors rest step.1
    (next.1, step.2 :: next.2)

/-- Specification-side grammar predicate, stated from the spec's words for
comparison with the implementation: the stored string matches
`projects/:project_id/databases/:database_id/documents/:document_path*`
and none of the three captures is empty or absent. -/
def validReference (s : String) : Bool :=
  match splitOnSlash s with
  | a :: p :: b :: d :: c :: rest =>
    a == "projects" && p != "" && b == "databases" && d != "" &&
      c == "documents" && !rest.isEmpty && rest.all (fun seg => seg != "")
  | _ => false

/-- The post-parse computation of each getter (what the getter applies to
the successful parse result): every accessor body in the source is `parse`
followed by one of these pure projections. -/
def accessorFn : Accessor → ParsedReference → String
  | .project_id => (·.project_id)
  | .database_id => (·.database_id)
  | .id => fun result =>
    let parts := splitOnSlash result.document_path
    parts.getD (parts.length - 1) ""
  | .collectionPath => fun result =>
    let parts := splitOnSlash result.document_path
    joinSlash (parts.take (parts.length - 1))
  | .path => (·.document_path)

/-- The stored string decomposes into the grammar's segments with all three
captures present and non-empty. -/
def GoodShape (s : String) : Prop :=
  ∃ p d rest, splitOnSlash s = "projects" :: p :: "databases" :: d :: "documents" :: rest ∧
    p ≠ "" ∧ d ≠ "" ∧ rest ≠ [] ∧ ∀ x ∈ rest, x ≠ ""

/-- Embeds `export type FirestoreFieldValue`: the closed recursive tagged
union of storable field values, one constructor per wire tag. TypeScript
`number` payloads are modelled as `Int` for `integerValue` and `Float` for
`doubleValue`; the `Record` payload of `mapValue` as an ordered key/value
list and the `arrayValue` payload as a list. -/
inductive FirestoreFieldValue where
  | stringValue (s : String)
  | integerValue (n : Int)
  | doubleValue (x : Float)
  | booleanValue (b : Bool)
  | nullValue
  | timestampValue (t : String)
  | geoPointValue (latitude longitude : Float)
  | referenceValue (referenceValue : String)
  | mapValue (fields : List (String × FirestoreFieldValue))
  | arrayValue (values : List FirestoreFieldValue)

/-- The ten recognized variant tags of `FirestoreFieldValue`. -/
inductive FieldValueTag where
  | stringValue | integerValue | doubleValue | booleanValue | nullValue
  | timestampValue | geoPointValue | referenceValue | mapValue | arrayValue
deriving Repr, DecidableEq

/-- The variant tag populated by a field value. -/
def tagOf : FirestoreFieldValue → FieldValueTag
  | .stringValue _ => .stringValue
  | .integerValue _ => .integerValue
  | .doubleValue _ => .doubleValue
  | .booleanValue _ => .booleanValue
  | .nullValue => .nullValue
  | .timestampValue _ => .timestampValue
  | .geoPointValue _ _ => .geoPointValue
  | .referenceValue _ => .referenceValue
  | .mapValue _ => .mapValue
  | .arrayValue _ => .arrayValue

/-- The direct sub-values reachable inside a field value: non-empty only
for the two recursive variants (`mapValue`, `arrayValue`). -/
def children : FirestoreFieldValue → List FirestoreFieldValue
  | .mapValue fields => fields.map Prod.snd
  | .arrayValue vs => vs
  | _ => []

mutual
/-- Nesting depth of a field value (scalars are depth 0). -/
def depthV : FirestoreFieldValue → Nat
  | .mapValue fields => depthF fields + 1
  | .arrayValue vs => depthL vs + 1
  | _ => 0
/-- Nesting depth of a map payload. -/
def depthF : List (String × FirestoreFieldValue) → Nat
  | [] => 0
  | (_, v) :: rest => max (depthV v) (depthF rest)
/-- Nesting depth of an array payload. -/
def depthL : List FirestoreFieldValue → Nat
  | [] => 0
  | v :: rest => max (depthV v) (depthL rest)
end

/-- An `arrayValue` chain nested `n` levels deep. -/
def arrayNest : Nat → FirestoreFieldValue
  | 0 => .nullValue
  | n + 1 => .arrayValue [arrayNest n]

/-- A `mapValue` chain nested `n` levels deep. -/
def mapNest : Nat → FirestoreFieldValue
  | 0 => .nullValue
  | n + 1 => .mapValue [("f", mapNest n)]


/-- Decidable equality of `Except` outcomes, to evaluate concrete runs. -/
instance exceptDecEq {e a : Type} [DecidableEq e] [DecidableEq a] :
    DecidableEq (Except e a) := fun x y =>
  match x, y with
  | .ok v, .ok w =>
    if h : v = w then .isTrue (by rw [h]) else .isFalse (by simp [h])
  | .error v, .error w =>
    if h : v = w then .isTrue (by rw [h]) else .isFalse (by simp [h])
  | .ok _, .error _ => .isFalse (by simp)
  | .error _, .ok _ => .isFalse (by simp)


section SplitJoinLemmas

theorem splitSegsCh_ne_nil (cs : List Char) : splitSegsCh cs ≠ [] := by
  simp [splitSegsCh]

theorem splitSegsCh_no_slash (cs : List Char) :
    ∀ s ∈ splitSegsCh cs, '/' ∉ s := by
  induction cs with
  | nil => simp [splitSegsCh, splitSegsP]
  | cons c cs ih =>
    intro s hs
    by_cases hc : c = '/'
    · simp only [splitSegsCh, splitSegsP, if_pos hc] at hs
      rcases List.mem_cons.mp hs with rfl | hs
      · simp
      · exact ih s hs
    · simp only [splitSegsCh, splitSegsP, if_neg hc] at hs
      rcases List.mem_cons.mp hs with rfl | hs
      · intro hmem
        rcases List.mem_cons.mp hmem with heq | hmem
        · exact hc heq.symm
        · exact ih (splitSegsP cs).1 (by simp [splitSegsCh]) hmem
      · exact ih s (by simp [splitSegsCh, hs])

theorem splitSegsCh_of_no_slash (cs : List Char) (h : '/' ∉ cs) :
    splitSegsCh cs = [cs] := by
  induction cs with
  | nil => simp [splitSegsCh, splitSegsP]
  | cons c cs ih =>
    have hc : c ≠ '/' := fun hc => h (by simp [hc])
    have hcs : '/' ∉ cs := fun hm => h (by simp [hm])
    have := ih hcs
    simp only [splitSegsCh, List.cons.injEq] at this
    simp [splitSegsCh, splitSegsP, if_neg hc, this.1, this.2]

theorem splitSegsCh_append (s t : List Char) (h : '/' ∉ s) :
    splitSegsCh (s ++ '/' :: t) = s :: splitSegsCh t := by
  induction s with
  | nil => simp [splitSegsCh, splitSegsP]
  | cons c s ih =>
    have hc : c ≠ '/' := fun hc => h (by simp [hc])
    have hs : '/' ∉ s := fun hm => h (by simp [hm])
    have := ih hs
    simp only [splitSegsCh, List.cons.injEq] at this
    simp [splitSegsCh, splitSegsP, if_neg hc, this.1, this.2]

theorem joinSegsCh_cons (s : List Char) (rest : List (List Char))
    (h : rest ≠ []) : joinSegsCh (s :: rest) = s ++ '/' :: joinSegsCh rest := by
  cases rest with
  | nil => exact absurd rfl h
  | cons r rs => rfl

theorem joinSegsCh_splitSegsCh (cs : List Char) :
    joinSegsCh (splitSegsCh cs) = cs := by
  induction cs with
  | nil => rfl
  | cons c cs ih =>
    by_cases hc : c = '/'
    · simp only [splitSegsCh, splitSegsP, if_pos hc]
      rw [joinSegsCh_cons _ _ (by simp)]
      simp only [List.nil_append]
      rw [show (splitSegsP cs).1 :: (splitSegsP cs).2 = splitSegsCh cs from rfl, ih, hc]
    · simp only [splitSegsCh, splitSegsP, if_neg hc]
      cases h2 : (splitSegsP cs).2 with
      | nil =>
        simp only [splitSegsCh, h2, joinSegsCh] at ih ⊢
        rw [ih]
      | cons r rs =>
        rw [joinSegsCh_cons _ _ (by simp)]
        simp only [splitSegsCh, h2] at ih
        rw [joinSegsCh_cons _ _ (by simp)] at ih
        conv_rhs => rw [← ih]
        rw [List.cons_append]

theorem splitSegsCh_joinSegsCh (segs : List (List Char)) (hne : segs ≠ [])
    (h : ∀ s ∈ segs, '/' ∉ s) : splitSegsCh (joinSegsCh segs) = segs := by
  induction segs with
  | nil => exact absurd rfl hne
  | cons s rest ih =>
    cases rest with
    | nil =>
      show splitSegsCh (joinSegsCh [s]) = [s]
      simp only [joinSegsCh]
      exact splitSegsCh_of_no_slash s (h s (by simp))
    | cons r rs =>
      rw [joinSegsCh_cons _ _ (by simp)]
      rw [splitSegsCh_append _ _ (h s (by simp))]
      rw [ih (by simp) (fun x hx => h x (by simp [hx]))]

theorem splitSegsCh_length_two_of_slash (cs : List Char) (h : '/' ∈ cs) :
    2 ≤ (splitSegsCh cs).length := by
  induction cs with
  | nil => simp at h
  | cons c cs ih =>
    by_cases hc : c = '/'
    · simp [splitSegsCh, splitSegsP, if_pos hc]
    · rcases List.mem_cons.mp h with heq | hm
      · exact absurd heq.symm hc
      · have := ih hm
        simp only [splitSegsCh, List.length_cons] at this ⊢
        simp only [splitSegsP, if_neg hc]
        omega

theorem joinSegsCh_decomp (l : List (List Char)) (h : 2 ≤ l.length) :
    joinSegsCh l =
      joinSegsCh (l.take (l.length - 1)) ++ '/' :: l.getD (l.length - 1) [] := by
  induction l with
  | nil => simp at h
  | cons s rest ih =>
    cases rest with
    | nil => simp at h
    | cons r rs =>
      cases rs with
      | nil => simp [joinSegsCh]
      | cons r2 rs2 =>
        have h2 : 2 ≤ (r :: r2 :: rs2).length := by simp
        have hlen : (s :: r :: r2 :: rs2).length - 1 =
            ((r :: r2 :: rs2).length - 1) + 1 := by simp
        rw [joinSegsCh_cons _ _ (by simp), ih h2, hlen]
        rw [List.take_succ_cons, List.getD_cons_succ]
        rw [joinSegsCh_cons s _ (by simp [List.take])]
        simp

end SplitJoinLemmas

section StringLemmas

theorem string_data_append (a b : String) : (a ++ b).data = a.data ++ b.data := by
  cases a; cases b; rfl

theorem string_eq_of_data (a b : String) (h : a.data = b.data) : a = b :=
  congrArg String.mk h

theorem string_data_eq_nil (s : String) : s.data = [] ↔ s = "" := by
  constructor
  · intro h
    cases s with
    | mk d =>
      have hd : d = [] := h
      rw [hd]
  · intro h
    rw [h]

theorem splitOnSlash_ne_nil (s : String) : splitOnSlash s ≠ [] := by
  simp [splitOnSlash, splitSegsCh]

theorem splitOnSlash_no_slash (s : String) :
    ∀ x ∈ splitOnSlash s, '/' ∉ x.data := by
  intro x hx
  simp only [splitOnSlash, List.mem_map] at hx
  obtain ⟨cs, hcs, rfl⟩ := hx
  exact splitSegsCh_no_slash s.data cs hcs

theorem joinSlash_splitOnSlash (s : String) : joinSlash (splitOnSlash s) = s := by
  apply string_eq_of_data
  simp only [joinSlash, splitOnSlash, List.map_map]
  have : (String.data ∘ String.mk) = id := rfl
  rw [this, List.map_id, joinSegsCh_splitSegsCh]

theorem splitOnSlash_joinSlash (l : List String) (hne : l ≠ [])
    (h : ∀ x ∈ l, '/' ∉ x.data) : splitOnSlash (joinSlash l) = l := by
  simp only [splitOnSlash, joinSlash]
  rw [splitSegsCh_joinSegsCh]
  · simp only [List.map_map]
    have : (String.mk ∘ String.data) = id := by
      funext x; cases x; rfl
    rw [this, List.map_id]
  · simpa using hne
  · intro x hx
    simp only [List.mem_map] at hx
    obtain ⟨y, hy, rfl⟩ := hx
    exact h y hy

theorem joinSlash_ne_empty (s : String) (rest : List String) (h : s ≠ "") :
    joinSlash (s :: rest) ≠ "" := by
  intro hc
  apply h
  rw [← string_data_eq_nil] at hc ⊢
  simp only [joinSlash, List.map_cons] at hc
  cases rest with
  | nil => exact hc
  | cons r rs =>
    rw [joinSegsCh_cons _ _ (by simp)] at hc
    simp at hc

/-- A reference string assembled from its five grammatical parts is the
slash-join of the corresponding segment list. -/
theorem buildRef_eq_joinSlash (P D : String) (segs : List String)
    (hne : segs ≠ []) :
    "projects/" ++ P ++ "/databases/" ++ D ++ "/documents/" ++ joinSlash segs =
      joinSlash ("projects" :: P :: "databases" :: D :: "documents" :: segs) := by
  apply string_eq_of_data
  have hmapne : segs.map String.data ≠ [] := by simpa using hne
  simp only [string_data_append, joinSlash, List.map_cons]
  rw [joinSegsCh_cons _ _ (by simp), joinSegsCh_cons _ _ (by simp),
    joinSegsCh_cons _ _ (by simp), joinSegsCh_cons _ _ (by simp),
    joinSegsCh_cons _ _ hmapne]
  simp

theorem splitOnSlash_buildRef (P D : String) (segs : List String)
    (hP : '/' ∉ P.data) (hD : '/' ∉ D.data)
    (hsegs : ∀ x ∈ segs, '/' ∉ x.data) (hne : segs ≠ []) :
    splitOnSlash
        ("projects/" ++ P ++ "/databases/" ++ D ++ "/documents/" ++ joinSlash segs) =
      "projects" :: P :: "databases" :: D :: "documents" :: segs := by
  rw [buildRef_eq_joinSlash P D segs hne]
  apply splitOnSlash_joinSlash
  · simp
  · intro x hx
    simp only [List.mem_cons] at hx
    rcases hx with rfl | rfl | rfl | rfl | rfl | hx
    · decide
    · exact hP
    · decide
    · exact hD
    · decide
    · exact hsegs x hx

end StringLemmas

section ParseCharacterization

theorem patternExec_of_goodShape (s p d : String) (rest : List String)
    (hsp : splitOnSlash s = "projects" :: p :: "databases" :: d :: "documents" :: rest)
    (hp : p ≠ "") (hd : d ≠ "") (hrne : rest ≠ []) (hall : ∀ x ∈ rest, x ≠ "") :
    patternExec s = some ⟨p, d, some (joinSlash rest)⟩ := by
  cases rest with
  | nil => exact absurd rfl hrne
  | cons r rs =>
    have h1 : r ≠ "" := hall r (by simp)
    have h2 : "" ∉ rs := fun hc => hall "" (by simp [hc]) rfl
    simp [patternExec, hsp, hp, hd, h1, h2]

theorem parse_of_goodShape (s p d : String) (rest : List String)
    (hsp : splitOnSlash s = "projects" :: p :: "databases" :: d :: "documents" :: rest)
    (hp : p ≠ "") (hd : d ≠ "") (hrne : rest ≠ []) (hall : ∀ x ∈ rest, x ≠ "") :
    (LiteralDocumentReference.mk s).parse = .ok ⟨p, d, joinSlash rest⟩ := by
  have hpe := patternExec_of_goodShape s p d rest hsp hp hd hrne hall
  have hjne : joinSlash rest ≠ "" := by
    cases rest with
    | nil => exact absurd rfl hrne
    | cons r rs => exact joinSlash_ne_empty r rs (hall r (by simp))
  simp [LiteralDocumentReference.parse, hpe, hp, hd, hjne]

theorem parse_of_badShape (s : String) (h : ¬ GoodShape s) :
    (LiteralDocumentReference.mk s).parse = .error malformedMessage := by
  rcases hsp : splitOnSlash s with _ | ⟨a, _ | ⟨p, _ | ⟨b, _ | ⟨d, _ | ⟨c, rest⟩⟩⟩⟩⟩
  case nil => simp [LiteralDocumentReference.parse, patternExec, hsp]
  case cons.nil => simp [LiteralDocumentReference.parse, patternExec, hsp]
  case cons.cons.nil => simp [LiteralDocumentReference.parse, patternExec, hsp]
  case cons.cons.cons.nil => simp [LiteralDocumentReference.parse, patternExec, hsp]
  case cons.cons.cons.cons.nil =>
    simp [LiteralDocumentReference.parse, patternExec, hsp]
  case cons.cons.cons.cons.cons =>
    by_cases hcond : a = "projects" ∧ b = "databases" ∧ c = "documents" ∧
        p ≠ "" ∧ d ≠ "" ∧ (∀ seg ∈ rest, seg ≠ "")
    · obtain ⟨ha, hb, hc, hp, hd, hall⟩ := hcond
      subst ha; subst hb; subst hc
      have hrest : rest = [] := by
        by_contra hrne
        exact h ⟨p, d, rest, hsp, hp, hd, hrne, hall⟩
      subst hrest
      have hpe : patternExec s = some ⟨p, d, none⟩ := by
        simp [patternExec, hsp, hp, hd]
      simp [LiteralDocumentReference.parse, hpe, hp, hd]
    · have hpe : patternExec s = none := by
        simp only [patternExec, hsp]
        rw [if_neg]
        intro hcc
        apply hcond
        simpa using hcc
      simp [LiteralDocumentReference.parse, hpe]

theorem validReference_iff_goodShape (s : String) :
    validReference s = true ↔ GoodShape s := by
  rcases hsp : splitOnSlash s with _ | ⟨a, _ | ⟨p, _ | ⟨b, _ | ⟨d, _ | ⟨c, rest⟩⟩⟩⟩⟩ <;>
    simp only [validReference, GoodShape, hsp]
  case nil => simp
  case cons.nil => simp
  case cons.cons.nil => simp
  case cons.cons.cons.nil => simp
  case cons.cons.cons.cons.nil => simp
  case cons.cons.cons.cons.cons =>
    constructor
    · intro hb
      simp only [Bool.and_eq_true, beq_iff_eq, bne_iff_ne, Bool.not_eq_true',
        List.all_eq_true, List.isEmpty_eq_false] at hb
      obtain ⟨⟨⟨⟨⟨⟨ha, hp⟩, hbd⟩, hd⟩, hc⟩, hrne⟩, hall⟩ := hb
      subst ha; subst hbd; subst hc
      exact ⟨p, d, rest, rfl, hp, hd, hrne, fun x hx => by simpa using hall x hx⟩
    · rintro ⟨p', d', rest', heq, hp, hd, hrne, hall⟩
      injection heq with h1 heq; injection heq with h2 heq; injection heq with h3 heq
      injection heq with h4 heq; injection heq with h5 h6
      subst h1; subst h2; subst h3; subst h4; subst h5; subst h6
      simp only [Bool.and_eq_true, beq_iff_eq, bne_iff_ne, Bool.not_eq_true',
        List.all_eq_true, List.isEmpty_eq_false]
      exact ⟨⟨⟨⟨⟨⟨by simp, hp⟩, by simp⟩, hd⟩, by simp⟩, hrne⟩,
        fun x hx => by simpa using hall x hx⟩

end ParseCharacterization

section AccessorLemmas

theorem evalAccessor_eq_map (a : Accessor) (r : LiteralDocumentReference) :
    evalAccessor a r = r.parse.map (accessorFn a) := by
  cases a <;> rfl

theorem runAccessors_fst (as : List Accessor) (r : LiteralDocumentReference) :
    (runAccessors as r).1 = r := by
  induction as with
  | nil => rfl
  | cons a rest ih => simpa [runAccessors, stepAccessor] using ih

theorem parse_error_eq (r : LiteralDocumentReference) (e : String)
    (h : r.parse = .error e) : e = malformedMessage := by
  simp only [LiteralDocumentReference.parse] at h
  split at h
  · injection h with h; exact h.symm
  · split at h
    · injection h with h; exact h.symm
    · split at h
      · injection h with h; exact h.symm
      · split at h
        · injection h with h; exact h.symm
        · split at h
          · injection h with h; exact h.symm
          · exact absurd h (by simp)

theorem splitOnSlash_of_no_slash (s : String) (h : '/' ∉ s.data) :
    splitOnSlash s = [s] := by
  simp only [splitOnSlash, splitSegsCh_of_no_slash s.data h, List.map_cons,
    List.map_nil]

theorem getD_map_mk (l : List (List Char)) (k : Nat) (h : k < l.length) :
    (l.map String.mk).getD k "" = String.mk (l.getD k []) := by
  induction l generalizing k with
  | nil => simp at h
  | cons x xs ih =>
    cases k with
    | zero => rfl
    | succ k =>
      simp only [List.map_cons, List.getD_cons_succ]
      exact ih k (by simpa using h)

theorem joinSlash_pair (c i : String) : c ++ "/" ++ i = joinSlash [c, i] := by
  apply string_eq_of_data
  simp only [string_data_append, joinSlash, List.map_cons, List.map_nil]
  rw [joinSegsCh_cons _ _ (by simp)]
  simp [joinSegsCh]

theorem joinSlash_singleton (s : String) : joinSlash [s] = s := by
  apply string_eq_of_data
  rfl

/-- A reference string with no document path at all is the slash-join of
the five leading grammar segments. -/
theorem buildRef0_eq_joinSlash (P D : String) :
    "projects/" ++ P ++ "/databases/" ++ D ++ "/documents" =
      joinSlash ["projects", P, "databases", D, "documents"] := by
  apply string_eq_of_data
  simp only [string_data_append, joinSlash, List.map_cons, List.map_nil]
  rw [joinSegsCh_cons _ _ (by simp), joinSegsCh_cons _ _ (by simp),
    joinSegsCh_cons _ _ (by simp), joinSegsCh_cons _ _ (by simp)]
  simp [joinSegsCh]

/-- The five accessors on a well-formed reference assembled from parts. -/
theorem accessors_of_buildRef (P D : String) (segs : List String)
    (hP : P ≠ "") (hD : D ≠ "") (hPs : '/' ∉ P.data) (hDs : '/' ∉ D.data)
    (hne : segs ≠ [])
    (hsegs : ∀ x ∈ segs, x ≠ "" ∧ '/' ∉ x.data) :
    (LiteralDocumentReference.mk
        ("projects/" ++ P ++ "/databases/" ++ D ++ "/documents/" ++ joinSlash segs)).parse =
        .ok ⟨P, D, joinSlash segs⟩ ∧
    (LiteralDocumentReference.mk
        ("projects/" ++ P ++ "/databases/" ++ D ++ "/documents/" ++ joinSlash segs)).project_id =
        .ok P ∧
    (LiteralDocumentReference.mk
        ("projects/" ++ P ++ "/databases/" ++ D ++ "/documents/" ++ joinSlash segs)).database_id =
        .ok D ∧
    (LiteralDocumentReference.mk
        ("projects/" ++ P ++ "/databases/" ++ D ++ "/documents/" ++ joinSlash segs)).path =
        .ok (joinSlash segs) ∧
    (LiteralDocumentReference.mk
        ("projects/" ++ P ++ "/databases/" ++ D ++ "/documents/" ++ joinSlash segs)).id =
        .ok (segs.getD (segs.length - 1) "") ∧
    (LiteralDocumentReference.mk
        ("projects/" ++ P ++ "/databases/" ++ D ++ "/documents/" ++ joinSlash segs)).collectionPath =
        .ok (joinSlash (segs.take (segs.length - 1))) := by
  have hsp := splitOnSlash_buildRef P D segs hPs hDs (fun x hx => (hsegs x hx).2) hne
  have hparse := parse_of_goodShape _ P D segs hsp hP hD hne (fun x hx => (hsegs x hx).1)
  have hparts : splitOnSlash (joinSlash segs) = segs :=
    splitOnSlash_joinSlash segs hne (fun x hx => (hsegs x hx).2)
  refine ⟨hparse, ?_, ?_, ?_, ?_, ?_⟩
  · simp [LiteralDocumentReference.project_id, hparse, Except.map]
  · simp [LiteralDocumentReference.database_id, hparse, Except.map]
  · simp [LiteralDocumentReference.path, hparse, Except.map]
  · simp [LiteralDocumentReference.id, hparse, hparts, Except.map]
  · simp [LiteralDocumentReference.collectionPath, hparse, hparts, Except.map]

end AccessorLemmas

section MoreHelpers

theorem string_append_assoc (a b c : String) : a ++ b ++ c = a ++ (b ++ c) := by
  apply string_eq_of_data
  simp [string_data_append, List.append_assoc]

theorem getD_data_map (l : List String) (k : Nat) (h : k < l.length) :
    (l.map String.data).getD k [] = (l.getD k "").data := by
  induction l generalizing k with
  | nil => simp at h
  | cons x xs ih =>
    cases k with
    | zero => rfl
    | succ k =>
      simp only [List.map_cons, List.getD_cons_succ]
      exact ih k (by simpa using h)

theorem joinSlash_decomp (l : List String) (h : 2 ≤ l.length) :
    joinSlash l =
      joinSlash (l.take (l.length - 1)) ++ "/" ++ l.getD (l.length - 1) "" := by
  apply string_eq_of_data
  simp only [string_data_append, joinSlash]
  have hd := joinSegsCh_decomp (l.map String.data) (by simpa using h)
  rw [List.length_map] at hd
  rw [hd, ← List.map_take, getD_data_map l (l.length - 1) (by omega)]
  simp [show "/".data = ['/'] from rfl]

end MoreHelpers

/-- C1: for every reference string `projects/P/databases/D/documents/C1/I1`
built from non-empty segments that contain no `/`, the accessors return
`project_id = P`, `database_id = D`, `path = C1 ++ "/" ++ I1`, `id = I1`
and `collectionPath = C1` (the spec's scenario is the instance
`P = "my-proj"`, `D = "(default)"`, `C1 = "cities"`, `I1 = "LA"`). -/
theorem claim1_two_segment_accessors (P D C I : String)
    (hP : P ≠ "") (hD : D ≠ "") (hC : C ≠ "") (hI : I ≠ "")
    (hPs : '/' ∉ P.data) (hDs : '/' ∉ D.data) (hCs : '/' ∉ C.data)
    (hIs : '/' ∉ I.data) :
    (LiteralDocumentReference.mk
        ("projects/" ++ P ++ "/databases/" ++ D ++ "/documents/" ++ C ++ "/" ++ I)).project_id =
      .ok P ∧
    (LiteralDocumentReference.mk
        ("projects/" ++ P ++ "/databases/" ++ D ++ "/documents/" ++ C ++ "/" ++ I)).database_id =
      .ok D ∧
    (LiteralDocumentReference.mk
        ("projects/" ++ P ++ "/databases/" ++ D ++ "/documents/" ++ C ++ "/" ++ I)).path =
      .ok (C ++ "/" ++ I) ∧
    (LiteralDocumentReference.mk
        ("projects/" ++ P ++ "/databases/" ++ D ++ "/documents/" ++ C ++ "/" ++ I)).id =
      .ok I ∧
    (LiteralDocumentReference.mk
        ("projects/" ++ P ++ "/databases/" ++ D ++ "/documents/" ++ C ++ "/" ++ I)).collectionPath =
      .ok C := by
  have href : "projects/" ++ P ++ "/databases/" ++ D ++ "/documents/" ++ C ++ "/" ++ I =
      "projects/" ++ P ++ "/databases/" ++ D ++ "/documents/" ++ joinSlash [C, I] := by
    rw [← joinSlash_pair]
    simp [string_append_assoc]
  have hsegs : ∀ x ∈ [C, I], x ≠ "" ∧ '/' ∉ x.data := by
    intro x hx
    rcases List.mem_cons.mp hx with rfl | hx
    · exact ⟨hC, hCs⟩
    · rcases List.mem_cons.mp hx with rfl | hx
      · exact ⟨hI, hIs⟩
      · simp at hx
  obtain ⟨hparse, h1, h2, h3, h4, h5⟩ :=
    accessors_of_buildRef P D [C, I] hP hD hPs hDs (by simp) hsegs
  rw [href]
  refine ⟨h1, h2, ?_, ?_, ?_⟩
  · rw [h3, ← joinSlash_pair]
  · rw [h4]
    rfl
  · rw [h5]
    simp [joinSlash_singleton]

/-- C1 witness: the spec's concrete scenario. -/
theorem claim1_witness :
    (LiteralDocumentReference.mk
        "projects/my-proj/databases/(default)/documents/cities/LA").project_id =
      .ok "my-proj" ∧
    (LiteralDocumentReference.mk
        "projects/my-proj/databases/(default)/documents/cities/LA").database_id =
      .ok "(default)" ∧
    (LiteralDocumentReference.mk
        "projects/my-proj/databases/(default)/documents/cities/LA").path =
      .ok "cities/LA" ∧
    (LiteralDocumentReference.mk
        "projects/my-proj/databases/(default)/documents/cities/LA").id =
      .ok "LA" ∧
    (LiteralDocumentReference.mk
        "projects/my-proj/databases/(default)/documents/cities/LA").collectionPath =
      .ok "cities" := by
  have h := claim1_two_segment_accessors "my-proj" "(default)" "cities" "LA"
    (by decide) (by decide) (by decide) (by decide)
    (by decide) (by decide) (by decide) (by decide)
  rw [show "projects/" ++ "my-proj" ++ "/databases/" ++ "(default)" ++ "/documents/" ++
      "cities" ++ "/" ++ "LA" =
      "projects/my-proj/databases/(default)/documents/cities/LA" from by decide] at h
  exact ⟨h.1, h.2.1, h.2.2.1.trans (by decide), h.2.2.2.1, h.2.2.2.2⟩

/-- C3: for every valid reference whose document path is a chain of
collection/id pairs (an even number of non-empty, slash-free segments),
`id` returns the final `/`-delimited segment and `collectionPath` returns
all preceding segments joined by `/` (e.g. for
`projects/p1/databases/(default)/documents/users/u1/posts/p2`:
`id = "p2"`, `collectionPath = "users/u1/posts"`). -/
theorem claim3_subcollection_chain (P D : String) (segs : List String)
    (hP : P ≠ "") (hD : D ≠ "") (hPs : '/' ∉ P.data) (hDs : '/' ∉ D.data)
    (hne : segs ≠ []) (_hpairs : segs.length % 2 = 0)
    (hsegs : ∀ x ∈ segs, x ≠ "" ∧ '/' ∉ x.data) :
    (LiteralDocumentReference.mk
        ("projects/" ++ P ++ "/databases/" ++ D ++ "/documents/" ++ joinSlash segs)).id =
      .ok (segs.getD (segs.length - 1) "") ∧
    (LiteralDocumentReference.mk
        ("projects/" ++ P ++ "/databases/" ++ D ++ "/documents/" ++ joinSlash segs)).collectionPath =
      .ok (joinSlash (segs.take (segs.length - 1))) := by
  obtain ⟨-, -, -, -, h4, h5⟩ :=
    accessors_of_buildRef P D segs hP hD hPs hDs hne hsegs
  exact ⟨h4, h5⟩

/-- C3 witness: the spec's subcollection scenario. -/
theorem claim3_witness :
    (LiteralDocumentReference.mk
        "projects/p1/databases/(default)/documents/users/u1/posts/p2").id =
      .ok "p2" ∧
    (LiteralDocumentReference.mk
        "projects/p1/databases/(default)/documents/users/u1/posts/p2").collectionPath =
      .ok "users/u1/posts" := by
  have h := claim3_subcollection_chain "p1" "(default)" ["users", "u1", "posts", "p2"]
    (by decide) (by decide) (by decide) (by decide) (by decide) (by decide)
    (by decide)
  rw [show "projects/" ++ "p1" ++ "/databases/" ++ "(default)" ++ "/documents/" ++
      joinSlash ["users", "u1", "posts", "p2"] =
      "projects/p1/databases/(default)/documents/users/u1/posts/p2" from by decide] at h
  exact ⟨h.1.trans (by decide), h.2.trans (by decide)⟩

/-- C5: a reference whose document path is a single segment parses without
error — the parser enforces no parity on the segment count — and `id`
returns that single segment; more generally, whenever `parse` succeeds
with a slash-free document path, `id` returns it whole. -/
theorem claim5_single_segment (P D S : String)
    (hP : P ≠ "") (hD : D ≠ "") (hS : S ≠ "")
    (hPs : '/' ∉ P.data) (hDs : '/' ∉ D.data) (hSs : '/' ∉ S.data) :
    (LiteralDocumentReference.mk
        ("projects/" ++ P ++ "/databases/" ++ D ++ "/documents/" ++ S)).parse =
      .ok ⟨P, D, S⟩ ∧
    (LiteralDocumentReference.mk
        ("projects/" ++ P ++ "/databases/" ++ D ++ "/documents/" ++ S)).id =
      .ok S ∧
    ∀ (r : LiteralDocumentReference) (res : ParsedReference),
      r.parse = .ok res → '/' ∉ res.document_path.data →
        r.id = .ok res.document_path := by
  have hgen : ∀ (r : LiteralDocumentReference) (res : ParsedReference),
      r.parse = .ok res → '/' ∉ res.document_path.data →
        r.id = .ok res.document_path := by
    intro r res hok hns
    simp [LiteralDocumentReference.id, hok, Except.map,
      splitOnSlash_of_no_slash res.document_path hns]
  have hS1 : S = joinSlash [S] := (joinSlash_singleton S).symm
  obtain ⟨hparse, -, -, -, h4, -⟩ :=
    accessors_of_buildRef P D [S] hP hD hPs hDs (by simp)
      (fun x hx => by
        rcases List.mem_cons.mp hx with rfl | hx
        · exact ⟨hS, hSs⟩
        · simp at hx)
  rw [hS1]
  refine ⟨?_, ?_, hgen⟩
  · rw [hparse, ← hS1]
  · rw [h4]
    rfl

/-- C5 witness: a one-segment document path is accepted and returned by `id`. -/
theorem claim5_witness :
    (LiteralDocumentReference.mk "projects/p/databases/d/documents/solo").parse =
      .ok ⟨"p", "d", "solo"⟩ ∧
    (LiteralDocumentReference.mk "projects/p/databases/d/documents/solo").id =
      .ok "solo" := by
  have h := claim5_single_segment "p" "d" "solo"
    (by decide) (by decide) (by decide) (by decide) (by decide) (by decide)
  rw [show "projects/" ++ "p" ++ "/databases/" ++ "d" ++ "/documents/" ++ "solo" =
      "projects/p/databases/d/documents/solo" from by decide] at h
  exact ⟨h.1, h.2.1⟩

/-- C2: construction never fails (the constructor stores any string
unchanged), and each of the five derived accessors raises the
malformed-reference error if and only if the stored string fails the
grammar `projects/:project_id/databases/:database_id/documents/:document_path*`
or matches it with an empty/absent capture (`validReference` is the
spec-side statement of that condition); the outcome is the same for every
accessor and on every access. -/
theorem claim2_lazy_validation :
    (∀ s : String, (LiteralDocumentReference.mk s).referenceValue = s) ∧
    ∀ (r : LiteralDocumentReference) (a : Accessor),
      (evalAccessor a r = .error malformedMessage ↔
        validReference r.referenceValue = false) ∧
      ((∃ v, evalAccessor a r = .ok v) ↔ validReference r.referenceValue = true) := by
  refine ⟨fun s => rfl, fun r a => ?_⟩
  obtain ⟨s⟩ := r
  rw [evalAccessor_eq_map]
  by_cases hv : validReference s = true
  · obtain ⟨p, d, rest, hsp, hp, hd, hrne, hall⟩ :=
      (validReference_iff_goodShape s).mp hv
    have hparse := parse_of_goodShape s p d rest hsp hp hd hrne hall
    rw [hparse]
    constructor
    · simp [Except.map, hv]
    · simp [Except.map, hv]
  · have hv' : validReference s = false := by simpa using hv
    have hgs : ¬ GoodShape s := fun hg => by
      rw [(validReference_iff_goodShape s).mpr hg] at hv'
      simp at hv'
    have hparse := parse_of_badShape s hgs
    rw [hparse]
    constructor
    · simp [Except.map, hv']
    · simp [Except.map, hv']

/-- C4: the grammar match is anchored — whenever the pattern accepts a
string, the captures reassemble to the entire input, with nothing dropped
before `projects/` or after the captured document path. -/
theorem claim4_anchored_full_match (s : String) (g : PatternGroups)
    (h : patternExec s = some g) :
    (g.document_path = none →
      s = "projects/" ++ g.project_id ++ "/databases/" ++ g.database_id ++ "/documents") ∧
    ∀ dp, g.document_path = some dp →
      s = "projects/" ++ g.project_id ++ "/databases/" ++ g.database_id ++
        "/documents/" ++ dp := by
  rcases hsp : splitOnSlash s with _ | ⟨a, _ | ⟨p, _ | ⟨b, _ | ⟨d, _ | ⟨c, rest⟩⟩⟩⟩⟩ <;>
    simp only [patternExec, hsp] at h
  case nil => exact absurd h (by simp)
  case cons.nil => exact absurd h (by simp)
  case cons.cons.nil => exact absurd h (by simp)
  case cons.cons.cons.nil => exact absurd h (by simp)
  case cons.cons.cons.cons.nil => exact absurd h (by simp)
  case cons.cons.cons.cons.cons =>
    by_cases hcond : a = "projects" ∧ b = "databases" ∧ c = "documents" ∧
        p ≠ "" ∧ d ≠ "" ∧ (∀ seg ∈ rest, seg ≠ "")
    · rw [if_pos hcond] at h
      obtain ⟨ha, hb, hc, hp, hd, hall⟩ := hcond
      subst ha; subst hb; subst hc
      injection h with h
      subst h
      dsimp only
      have hs_eq : s = joinSlash ("projects" :: p :: "databases" :: d :: "documents" :: rest) :=
        (joinSlash_splitOnSlash s).symm.trans (congrArg joinSlash hsp)
      cases rest with
      | nil =>
        refine ⟨fun _ => ?_, fun dp hdp => ?_⟩
        · rw [hs_eq, buildRef0_eq_joinSlash]
        · simp at hdp
      | cons r rs =>
        refine ⟨fun hnone => ?_, fun dp hdp => ?_⟩
        · simp at hnone
        · have hdp' : joinSlash (r :: rs) = dp := by simpa using hdp
          rw [hs_eq, ← hdp', buildRef_eq_joinSlash p d (r :: rs) (by simp)]
    · rw [if_neg hcond] at h
      exact absurd h (by simp)

/-- C4 witness: reassembling a concrete accepted reference. -/
theorem claim4_witness :
    patternExec "projects/p/databases/d/documents/c/i" =
      some ⟨"p", "d", some "c/i"⟩ ∧
    "projects/p/databases/d/documents/c/i" =
      "projects/" ++ "p" ++ "/databases/" ++ "d" ++ "/documents/" ++ "c/i" := by
  have hpe : patternExec "projects/p/databases/d/documents/c/i" =
      some ⟨"p", "d", some "c/i"⟩ := by decide
  exact ⟨hpe, (claim4_anchored_full_match _ _ hpe).2 "c/i" rfl⟩

/-- C6: every field value carries exactly one of the ten recognized
variant tags, all ten tags are realizable and the union is closed (it is
an inductive type over exactly these constructors), `mapValue` and
`arrayValue` are the only variants with sub-values, and both nest to
arbitrary depth. -/
theorem claim6_closed_tagged_union :
    (∀ v : FirestoreFieldValue, ∃! t : FieldValueTag, tagOf v = t) ∧
    (∀ t : FieldValueTag, ∃ v : FirestoreFieldValue, tagOf v = t) ∧
    (∀ n : Nat, depthV (arrayNest n) = n ∧ depthV (mapNest n) = n) ∧
    (∀ v : FirestoreFieldValue, children v ≠ [] →
      tagOf v = .mapValue ∨ tagOf v = .arrayValue) := by
  refine ⟨fun v => ⟨tagOf v, rfl, fun t ht => ht.symm⟩, fun t => ?_, fun n => ?_, fun v h => ?_⟩
  · cases t
    · exact ⟨.stringValue "", rfl⟩
    · exact ⟨.integerValue 0, rfl⟩
    · exact ⟨.doubleValue 0, rfl⟩
    · exact ⟨.booleanValue true, rfl⟩
    · exact ⟨.nullValue, rfl⟩
    · exact ⟨.timestampValue "", rfl⟩
    · exact ⟨.geoPointValue 0 0, rfl⟩
    · exact ⟨.referenceValue "", rfl⟩
    · exact ⟨.mapValue [], rfl⟩
    · exact ⟨.arrayValue [], rfl⟩
  · induction n with
    | zero => exact ⟨rfl, rfl⟩
    | succ n ih =>
      constructor
      · simp only [arrayNest, depthV, depthL]
        omega
      · simp only [mapNest, depthV, depthF]
        omega
  · cases v <;> simp [children, tagOf] at h ⊢

/-- C6 witness: a scalar value has no sub-values; the recursive-variant
conclusion applies to a concrete array. -/
theorem claim6_witness :
    tagOf (FirestoreFieldValue.arrayValue [FirestoreFieldValue.nullValue]) =
        FieldValueTag.mapValue ∨
    tagOf (FirestoreFieldValue.arrayValue [FirestoreFieldValue.nullValue]) =
        FieldValueTag.arrayValue :=
  claim6_closed_tagged_union.2.2.2 _ (by simp [children])

/-- C7: no accessor call mutates the reference — after any sequence of
accessor invocations the object (hence its stored `referenceValue`) is
unchanged — and every accessor's outcome is a function of the stored
string alone. -/
theorem claim7_no_mutation (as : List Accessor) (r : LiteralDocumentReference) :
    (runAccessors as r).1.referenceValue = r.referenceValue ∧
    (runAccessors as r).1 = r ∧
    ∀ (r1 r2 : LiteralDocumentReference) (a : Accessor),
      r1.referenceValue = r2.referenceValue → evalAccessor a r1 = evalAccessor a r2 := by
  refine ⟨by rw [runAccessors_fst], runAccessors_fst as r, fun r1 r2 a h => ?_⟩
  have hr : r1 = r2 := by
    cases r1; cases r2; simpa using h
  rw [hr]

/-- C7 witness: a concrete accessor sequence leaves the object unchanged,
and equal stored strings give equal accessor outcomes. -/
theorem claim7_witness :
    (runAccessors [Accessor.id, Accessor.project_id]
        (LiteralDocumentReference.mk "projects/p/databases/d/documents/c/i")).1 =
      LiteralDocumentReference.mk "projects/p/databases/d/documents/c/i" ∧
    evalAccessor Accessor.path (LiteralDocumentReference.mk "not-a-valid-path") =
      evalAccessor Accessor.path (LiteralDocumentReference.mk "not-a-valid-path") := by
  have h := claim7_no_mutation [Accessor.id, Accessor.project_id]
    (LiteralDocumentReference.mk "projects/p/databases/d/documents/c/i")
  exact ⟨h.2.1, h.2.2 _ _ Accessor.path rfl⟩

/-- C8: accessor evaluation is deterministic and idempotent — the outcome
of an accessor is the same no matter which (possibly failing) accessor
sequence ran before, and equals the outcome on the fresh object. -/
theorem claim8_deterministic (r : LiteralDocumentReference) (a : Accessor)
    (as1 as2 : List Accessor) :
    evalAccessor a (runAccessors as1 r).1 = evalAccessor a (runAccessors as2 r).1 ∧
    evalAccessor a (runAccessors as1 r).1 = evalAccessor a r := by
  rw [runAccessors_fst, runAccessors_fst]
  exact ⟨rfl, rfl⟩

/-- C9: path decomposition is consistent — on a successful parse, if the
document path contains a `/` then `path = collectionPath ++ "/" ++ id`,
and if it is a single segment then `collectionPath = ""` and `id = path`. -/
theorem claim9_path_decomposition (r : LiteralDocumentReference)
    (res : ParsedReference) (hok : r.parse = .ok res) :
    r.path = .ok res.document_path ∧
    ('/' ∈ res.document_path.data →
      ∃ cp i, r.collectionPath = .ok cp ∧ r.id = .ok i ∧
        res.document_path = cp ++ "/" ++ i) ∧
    ('/' ∉ res.document_path.data →
      r.collectionPath = .ok "" ∧ r.id = .ok res.document_path) := by
  refine ⟨by simp [LiteralDocumentReference.path, hok, Except.map],
    fun hslash => ?_, fun hns => ?_⟩
  · have hlen : 2 ≤ (splitOnSlash res.document_path).length := by
      rw [splitOnSlash, List.length_map]
      exact splitSegsCh_length_two_of_slash _ hslash
    refine ⟨joinSlash ((splitOnSlash res.document_path).take
        ((splitOnSlash res.document_path).length - 1)),
      (splitOnSlash res.document_path).getD
        ((splitOnSlash res.document_path).length - 1) "", ?_, ?_, ?_⟩
    · simp [LiteralDocumentReference.collectionPath, hok, Except.map]
    · simp [LiteralDocumentReference.id, hok, Except.map]
    · conv_lhs => rw [← joinSlash_splitOnSlash res.document_path]
      exact joinSlash_decomp _ hlen
  · have hone := splitOnSlash_of_no_slash res.document_path hns
    constructor
    · have hj0 : joinSlash ([] : List String) = "" := rfl
      simp [LiteralDocumentReference.collectionPath, hok, Except.map, hone, hj0]
    · simp [LiteralDocumentReference.id, hok, Except.map, hone]

/-- C9 witness: decomposition of a concrete two-segment document path. -/
theorem claim9_witness :
    (LiteralDocumentReference.mk "projects/p/databases/d/documents/c/i").path =
      .ok "c/i" ∧
    ∃ cp i,
      (LiteralDocumentReference.mk "projects/p/databases/d/documents/c/i").collectionPath =
        .ok cp ∧
      (LiteralDocumentReference.mk "projects/p/databases/d/documents/c/i").id =
        .ok i ∧
      ("c/i" : String) = cp ++ "/" ++ i := by
  have h := claim9_path_decomposition
    (LiteralDocumentReference.mk "projects/p/databases/d/documents/c/i")
    ⟨"p", "d", "c/i"⟩ (by decide)
  exact ⟨h.1, h.2.1 (by decide)⟩

/-- C10: all failure branches throw the identical message — whenever any
accessor fails, the error is exactly
`"Invalid document path. Path does not match pattern."`. -/
theorem claim10_single_error_message (r : LiteralDocumentReference)
    (a : Accessor) (e : String) (h : evalAccessor a r = .error e) :
    e = malformedMessage := by
  rw [evalAccessor_eq_map] at h
  cases hp : r.parse with
  | ok res =>
    rw [hp] at h
    simp [Except.map] at h
  | error e2 =>
    rw [hp] at h
    simp only [Except.map] at h
    injection h with h
    exact h ▸ parse_error_eq r e2 hp

/-- C10 witness: the concrete failing input raises exactly the malformed
message. -/
theorem claim10_witness :
    evalAccessor Accessor.project_id (LiteralDocumentReference.mk "not-a-valid-path") =
      .error malformedMessage ∧
    malformedMessage = malformedMessage := by
  have he : evalAccessor Accessor.project_id
      (LiteralDocumentReference.mk "not-a-valid-path") =
      .error malformedMessage := by decide
  exact ⟨he, claim10_single_error_message _ _ _ he⟩
